import Mathlib

/-!
Verification of the client-side ordered-sequence engine of the
`wagtailstreamfield` prototype (`sequence.js`, `list.js`, `stream.js`,
`struct.js`, `chooser.js`).

The central model below is a shallow embedding of the final `Sequence` /
`SequenceMember` implementation (the file whose `Sequence` provides
`insertMemberBefore`, `insertMemberAfter`, `insertMemberAtStart`,
`insertMemberAtEnd` and `deleteMember`).  The browser state that those
functions read and write is:

  * the persisted counter hidden field `{prefix}-count`,
  * one persisted hidden field `{prefix}-{id}-order` per member,
  * one persisted hidden field `{prefix}-{id}-deleted` per member,
  * the visibility of each member's `{prefix}-{id}-container` element,
  * the DOM order of the container elements inside `{prefix}-list`,
  * the in-memory JavaScript array `members` of live members.

Member identities are the numeric suffixes allocated for their prefixes
(`opts.prefix + '-' + n`): the initial members get `0 .. count-1` and
`getNewMemberPrefix` allocates the current counter value.  A member is
represented here by that number; the rendered string address is produced
by `memberPfx` below.
-/

/-- One entry per member id in a persisted hidden-field table
(`id ↦ field value`).  `lookupField` models reading the hidden field:
it returns the first binding for the id, mirroring the unique DOM
element found by `$('#' + prefix + '-order')`. -/
def lookupField : Nat → List (Nat × Nat) → Option Nat
  | _, [] => none
  | m, (k, v) :: rest => if k = m then some v else lookupField m rest

/-- Writing a hidden field: replace the binding for `m` in place, or
create it if the member's field did not exist yet (a freshly pasted
member's `-order` field). -/
def updField : List (Nat × Nat) → Nat → Nat → List (Nat × Nat)
  | [], m, v => [(m, v)]
  | (k, w) :: rest, m, v =>
    if k = m then (m, v) :: rest else (k, w) :: updField rest m v

/-- The renumbering loops of `sequence.js`
(`for (var i = start; i < members.length; i++) members[i].setIndex(...)`):
assign consecutive index values, beginning at `start`, to the order
fields of the listed member ids. -/
def setIndicesFrom : List (Nat × Nat) → List Nat → Nat → List (Nat × Nat)
  | tbl, [], _ => tbl
  | tbl, m :: rest, start => setIndicesFrom (updField tbl m start) rest (start + 1)

/-- The full state owned by one `Sequence`: the persisted fields, the
container visibility, the DOM order of member containers, and the
in-memory `members` array.  `allocated` is a ghost history of every
member id ever created (the loop counter of the initial-member loop and
each `getNewMemberPrefix` result); it is not part of the browser state
and is only used to state lifetime claims. -/
structure SeqState where
  count : Nat
  members : List Nat
  orderTbl : List (Nat × Nat)
  deletedTbl : List Nat
  hiddenTbl : List Nat
  dom : List Nat
  allocated : List Nat
  deriving Repr, DecidableEq

/-- `SequenceMember.getIndex`: `parseInt` of the member's persisted
`-order` hidden field (all states considered here have the field
present; the default is irrelevant). -/
def getOrder (s : SeqState) (m : Nat) : Nat :=
  (lookupField m s.orderTbl).getD 0

/-- `$(container).before(elem)`: place the new container immediately
before the given member's container in the DOM child list (a no-op if
the target container is absent, as for an empty jQuery set). -/
def domInsertBefore : List Nat → Nat → Nat → List Nat
  | [], _, _ => []
  | x :: rest, other, n =>
    if x = other then n :: x :: rest else x :: domInsertBefore rest other n

/-- `$(container).after(elem)`: place the new container immediately
after the given member's container in the DOM child list. -/
def domInsertAfter : List Nat → Nat → Nat → List Nat
  | [], _, _ => []
  | x :: rest, other, n =>
    if x = other then x :: n :: rest else x :: domInsertAfter rest other n

/-- `Sequence.insertMemberBefore(otherMember, template)`.  Allocates the
next id from the counter (`getNewMemberPrefix`), pastes the new
container before `other`'s container, reads `other.getIndex()`, bumps
the order fields of the members from that position on, splices the new
member into the `members` array at that position and writes its order
field.  Returns the updated state together with the new member's id. -/
def insertMemberBefore (s : SeqState) (other : Nat) : SeqState × Nat :=
  let newId := s.count
  let idx := getOrder s other
  { count := s.count + 1
    members := s.members.take idx ++ newId :: s.members.drop idx
    orderTbl := updField (setIndicesFrom s.orderTbl (s.members.drop idx) (idx + 1)) newId idx
    deletedTbl := s.deletedTbl
    hiddenTbl := s.hiddenTbl
    dom := domInsertBefore s.dom other newId
    allocated := s.allocated ++ [newId] } |> (·, newId)

/-- `Sequence.insertMemberAfter(otherMember, template)`: as
`insertMemberBefore`, but at position `other.getIndex() + 1` and with
the container pasted after `other`'s container. -/
def insertMemberAfter (s : SeqState) (other : Nat) : SeqState × Nat :=
  let newId := s.count
  let idx := getOrder s other + 1
  { count := s.count + 1
    members := s.members.take idx ++ newId :: s.members.drop idx
    orderTbl := updField (setIndicesFrom s.orderTbl (s.members.drop idx) (idx + 1)) newId idx
    deletedTbl := s.deletedTbl
    hiddenTbl := s.hiddenTbl
    dom := domInsertAfter s.dom other newId
    allocated := s.allocated ++ [newId] } |> (·, newId)

/-- `Sequence.insertMemberAtStart(template)`: paste at the head of the
`-list` element, shift every member's order field up by one, `unshift`
the new member and give it order `0`. -/
def insertMemberAtStart (s : SeqState) : SeqState × Nat :=
  let newId := s.count
  { count := s.count + 1
    members := newId :: s.members
    orderTbl := updField (setIndicesFrom s.orderTbl s.members 1) newId 0
    deletedTbl := s.deletedTbl
    hiddenTbl := s.hiddenTbl
    dom := newId :: s.dom
    allocated := s.allocated ++ [newId] } |> (·, newId)

/-- `Sequence.insertMemberAtEnd(template)`: paste at the end of the
`-list` element, give the new member order `members.length` and `push`
it. -/
def insertMemberAtEnd (s : SeqState) : SeqState × Nat :=
  let newId := s.count
  { count := s.count + 1
    members := s.members ++ [newId]
    orderTbl := updField s.orderTbl newId s.members.length
    deletedTbl := s.deletedTbl
    hiddenTbl := s.hiddenTbl
    dom := s.dom ++ [newId]
    allocated := s.allocated ++ [newId] } |> (·, newId)

/-- `Sequence.deleteMember(member)`: read the member's persisted order
field, decrement the order fields of the members after that position,
`splice` that position out of the `members` array, then `_markDeleted`
(set the `-deleted` field to `'1'` and fade the container out).  The
counter and the DOM child list are untouched. -/
def deleteMember (s : SeqState) (m : Nat) : SeqState :=
  let idx := getOrder s m
  { count := s.count
    members := s.members.eraseIdx idx
    orderTbl := setIndicesFrom s.orderTbl (s.members.drop (idx + 1)) idx
    deletedTbl := m :: s.deletedTbl
    hiddenTbl := m :: s.hiddenTbl
    dom := s.dom
    allocated := s.allocated }

/-- The state at `Sequence` activation over `n` pre-existing members:
the persisted counter is `n`, the initial-member loop builds
`members = [0, …, n-1]`, and the server-rendered markup (the
`sequence_member.html` contract) supplies dense order fields `0 … n-1`
in DOM order, with no member deleted or hidden. -/
def initSeq (n : Nat) : SeqState :=
  { count := n
    members := List.range n
    orderTbl := (List.range n).map (fun i => (i, i))
    deletedTbl := []
    hiddenTbl := []
    dom := List.range n
    allocated := List.range n }

/-- One user-triggered structural mutation on a `Sequence`.  The member
argument of the relative inserts and of delete is the id of the member
whose control was clicked. -/
inductive SeqOp where
  | append : SeqOp
  | atStart : SeqOp
  | before (m : Nat) : SeqOp
  | after (m : Nat) : SeqOp
  | del (m : Nat) : SeqOp
  deriving Repr, DecidableEq

/-- Run one operation.  The relative inserts and delete are only ever
triggered from controls wired to a currently-live member, so the step
is undefined (`none`) when the named member is not in the live list. -/
def stepOp (s : SeqState) : SeqOp → Option SeqState
  | .append => some (insertMemberAtEnd s).1
  | .atStart => some (insertMemberAtStart s).1
  | .before m => if m ∈ s.members then some (insertMemberBefore s m).1 else none
  | .after m => if m ∈ s.members then some (insertMemberAfter s m).1 else none
  | .del m => if m ∈ s.members then some (deleteMember s m) else none

/-- Run a finite series of operations. -/
def runSeq (s : SeqState) : List SeqOp → Option SeqState
  | [] => some s
  | op :: rest =>
    match stepOp s op with
    | none => none
    | some s' => runSeq s' rest

/-- The reachable-state invariant of a `Sequence`: live members carry
the dense order values `0 … liveCount-1` in list position order, every
live member id is below the counter and not marked deleted, every
deleted id is below the counter, and the ghost allocation history is
duplicate-free and below the counter. -/
def SeqInv (s : SeqState) : Prop :=
  s.members.map (getOrder s) = List.range s.members.length
  ∧ (∀ m ∈ s.members, m < s.count ∧ m ∉ s.deletedTbl)
  ∧ (∀ d ∈ s.deletedTbl, d < s.count)
  ∧ s.allocated.Nodup
  ∧ (∀ a ∈ s.allocated, a < s.count)

instance (s : SeqState) : Decidable (SeqInv s) := by
  unfold SeqInv; infer_instance

/-! ### Lemmas about the hidden-field table -/

theorem lookupField_updField_self (tbl : List (Nat × Nat)) (m v : Nat) :
    lookupField m (updField tbl m v) = some v := by
  induction tbl with
  | nil => simp [updField, lookupField]
  | cons kw rest ih =>
    by_cases h : kw.1 = m
    · simp [updField, h, lookupField]
    · simp [updField, h, lookupField, ih]

theorem lookupField_updField_ne (tbl : List (Nat × Nat)) (m m' v : Nat) (h : m' ≠ m) :
    lookupField m' (updField tbl m v) = lookupField m' tbl := by
  have hmm : m ≠ m' := fun hh => h hh.symm
  induction tbl with
  | nil => simp [updField, lookupField, hmm]
  | cons kw rest ih =>
    by_cases hk : kw.1 = m
    · simp [updField, hk, lookupField, hmm]
    · simp [updField, hk, lookupField, ih]

theorem lookupField_setIndicesFrom_not_mem (ids : List Nat) (tbl : List (Nat × Nat))
    (m start : Nat) (h : m ∉ ids) :
    lookupField m (setIndicesFrom tbl ids start) = lookupField m tbl := by
  induction ids generalizing tbl start with
  | nil => simp [setIndicesFrom]
  | cons a rest ih =>
    have hm : m ≠ a := fun hh => h (hh ▸ List.mem_cons_self a rest)
    have hr : m ∉ rest := fun hh => h (List.mem_cons_of_mem a hh)
    simp only [setIndicesFrom]
    rw [ih _ _ hr, lookupField_updField_ne _ _ _ _ hm]

theorem lookupField_setIndicesFrom_getElem (ids : List Nat) (tbl : List (Nat × Nat))
    (start t : Nat) (hnd : ids.Nodup) (ht : t < ids.length) :
    lookupField ids[t] (setIndicesFrom tbl ids start) = some (start + t) := by
  induction ids generalizing tbl start t with
  | nil => simp at ht
  | cons a rest ih =>
    cases t with
    | zero =>
      have ha : a ∉ rest := (List.nodup_cons.mp hnd).1
      simp only [setIndicesFrom, List.getElem_cons_zero]
      rw [lookupField_setIndicesFrom_not_mem _ _ _ _ ha, lookupField_updField_self]
      simp
    | succ t' =>
      have hnd' : rest.Nodup := (List.nodup_cons.mp hnd).2
      simp only [setIndicesFrom, List.getElem_cons_succ]
      rw [ih _ _ _ hnd' (by simpa using ht)]
      congr 1
      omega

theorem lookupField_append_of_none (t1 t2 : List (Nat × Nat)) (m : Nat)
    (h : lookupField m t1 = none) :
    lookupField m (t1 ++ t2) = lookupField m t2 := by
  induction t1 with
  | nil => rfl
  | cons kw rest ih =>
    by_cases hk : kw.1 = m
    · simp [lookupField, hk] at h
    · simp only [lookupField, hk, if_false, List.cons_append] at h ⊢
      exact ih h

theorem lookupField_append_of_some (t1 t2 : List (Nat × Nat)) (m v : Nat)
    (h : lookupField m t1 = some v) :
    lookupField m (t1 ++ t2) = some v := by
  induction t1 with
  | nil => simp [lookupField] at h
  | cons kw rest ih =>
    by_cases hk : kw.1 = m
    · simp only [lookupField, hk, if_true, List.cons_append] at h ⊢
      exact h
    · simp only [lookupField, hk, if_false, List.cons_append] at h ⊢
      exact ih h

theorem lookupField_rangeTbl (n m : Nat) :
    lookupField m ((List.range n).map (fun i => (i, i)))
      = if m < n then some m else none := by
  induction n with
  | zero => simp [lookupField]
  | succ k ih =>
    rw [List.range_succ, List.map_append]
    by_cases hm : m < k
    · rw [lookupField_append_of_some _ _ _ m (by rw [ih]; simp [hm])]
      simp [Nat.lt_succ_of_lt hm]
    · rw [lookupField_append_of_none _ _ _ (by rw [ih]; simp [hm])]
      simp only [List.map_cons, List.map_nil]
      by_cases hmk : m = k
      · subst hmk
        simp [lookupField, Nat.lt_succ_self]
      · have hne : k ≠ m := fun h2 => hmk h2.symm
        have hge : ¬ (m < k + 1) := by omega
        simp [lookupField, hne, hge]

theorem pointwise_of_mapRange {L : List Nat} {f : Nat → Nat}
    (hmap : L.map f = List.range L.length) {i : Nat} (h : i < L.length) :
    f (L[i]) = i := by
  have h1 := congrArg (fun l => l[i]?) hmap
  simp only [List.getElem?_map, List.getElem?_range, h, if_pos] at h1
  rw [List.getElem?_eq_getElem h] at h1
  simpa using h1

theorem not_mem_drop_of_mem_take {α : Type} {L : List α} (hnd : L.Nodup) (j : Nat)
    {x : α} (hx : x ∈ L.take j) : x ∉ L.drop j := by
  have h := hnd
  rw [← List.take_append_drop j L] at h
  exact fun hd => (List.nodup_append.mp h).2.2 hx hd

/-- Density is preserved by every insert path of `sequence.js`: if the
live members `L` carry the dense order values `0 … |L|-1`, then after
bumping the order fields of the members from position `j` on, splicing
a fresh member id in at position `j` and writing `j` into its order
field, the new live list carries `0 … |L|`. -/
theorem denseAfterInsert (L : List Nat) (tbl : List (Nat × Nat)) (j newId : Nat)
    (hj : j ≤ L.length) (hnd : L.Nodup) (hfresh : newId ∉ L)
    (hmap : L.map (fun m => (lookupField m tbl).getD 0) = List.range L.length) :
    (L.take j ++ newId :: L.drop j).map
      (fun m => (lookupField m
        (updField (setIndicesFrom tbl (L.drop j) (j + 1)) newId j)).getD 0)
      = List.range (L.length + 1) := by
  have htl : (L.take j).length = j := by simp [hj]
  have hdl : (L.drop j).length = L.length - j := by simp
  have hndD : (L.drop j).Nodup := by
    have h := hnd
    rw [← List.take_append_drop j L] at h
    exact (List.nodup_append.mp h).2.1
  have hfreshD : newId ∉ L.drop j := fun hd => hfresh ((L.drop_subset j) hd)
  apply List.ext_getElem
  · simp [hj]
    omega
  · intro i h1 h2
    simp only [List.getElem_map, List.getElem_range]
    simp only [List.length_map, List.length_append, List.length_cons, htl, hdl] at h1
    rcases Nat.lt_trichotomy i j with hij | hij | hij
    · -- members before the insertion point: order fields untouched
      have hiA : i < (L.take j).length := by omega
      rw [List.getElem_append_left hiA]
      have hiL : i < L.length := by omega
      simp only [List.getElem_take]
      have hmem : L[i] ∈ L.take j := by
        have hm0 : (L.take j)[i] ∈ L.take j := List.getElem_mem hiA
        simpa only [List.getElem_take] using hm0
      have hne : L[i] ≠ newId := fun he => hfresh (he ▸ List.getElem_mem hiL)
      rw [lookupField_updField_ne _ _ _ _ hne,
        lookupField_setIndicesFrom_not_mem _ _ _ _ (not_mem_drop_of_mem_take hnd j hmem)]
      exact pointwise_of_mapRange hmap hiL
    · -- the freshly inserted member: order field written to j
      subst hij
      have hge : (L.take i).length ≤ i := by omega
      rw [List.getElem_append_right hge]
      have h0 : i - (L.take i).length = 0 := by omega
      simp only [h0, List.getElem_cons_zero]
      rw [lookupField_updField_self]
      rfl
    · -- members after the insertion point: order fields bumped to i
      have hge : (L.take j).length ≤ i := by omega
      rw [List.getElem_append_right hge]
      have hpos : i - (L.take j).length = (i - j - 1) + 1 := by omega
      have ht : i - j - 1 < (L.drop j).length := by omega
      have hstep : ∀ (hh : i - (L.take j).length < (newId :: L.drop j).length),
          (newId :: L.drop j)[i - (L.take j).length]
            = (L.drop j)[i - j - 1] := by
        intro hh
        simp only [hpos] at hh ⊢
        exact List.getElem_cons_succ ..
      rw [hstep]
      have hmemD : (L.drop j)[i - j - 1] ∈ L.drop j := List.getElem_mem ht
      have hne : (L.drop j)[i - j - 1] ≠ newId := fun he => hfreshD (he ▸ hmemD)
      rw [lookupField_updField_ne _ _ _ _ hne,
        lookupField_setIndicesFrom_getElem _ _ _ _ hndD ht]
      simp
      omega

/-- Density is preserved by `deleteMember`: if the live members `L`
carry the dense order values `0 … |L|-1`, then after decrementing the
order fields of the members after position `j` and erasing position
`j`, the remaining live list carries `0 … |L|-2`. -/
theorem denseAfterErase (L : List Nat) (tbl : List (Nat × Nat)) (j : Nat)
    (hj : j < L.length) (hnd : L.Nodup)
    (hmap : L.map (fun m => (lookupField m tbl).getD 0) = List.range L.length) :
    (L.eraseIdx j).map
      (fun m => (lookupField m (setIndicesFrom tbl (L.drop (j + 1)) j)).getD 0)
      = List.range (L.length - 1) := by
  have hndD : (L.drop (j + 1)).Nodup := by
    have h := hnd
    rw [← List.take_append_drop (j + 1) L] at h
    exact (List.nodup_append.mp h).2.1
  rw [List.eraseIdx_eq_take_drop_succ]
  have htl : (L.take j).length = j := by simp; omega
  apply List.ext_getElem
  · simp
    omega
  · intro i h1 h2
    simp only [List.getElem_map, List.getElem_range]
    simp only [List.length_map, List.length_append, List.length_take, List.length_drop] at h1
    rcases Nat.lt_or_ge i j with hij | hij
    · -- members before the deleted position: order fields untouched
      have hiA : i < (L.take j).length := by omega
      rw [List.getElem_append_left hiA]
      have hiL : i < L.length := by omega
      simp only [List.getElem_take]
      have hmem : L[i] ∈ L.take (j + 1) := by
        have hiA' : i < (L.take (j + 1)).length := by simp; omega
        have hm0 : (L.take (j + 1))[i] ∈ L.take (j + 1) := List.getElem_mem hiA'
        simpa only [List.getElem_take] using hm0
      rw [lookupField_setIndicesFrom_not_mem _ _ _ _
        (not_mem_drop_of_mem_take hnd (j + 1) hmem)]
      exact pointwise_of_mapRange hmap hiL
    · -- members after the deleted position: order fields decremented
      have hge : (L.take j).length ≤ i := by omega
      rw [List.getElem_append_right hge]
      have ht : i - (L.take j).length < (L.drop (j + 1)).length := by
        simp only [htl, List.length_drop]
        omega
      rw [lookupField_setIndicesFrom_getElem _ _ _ _ hndD ht]
      simp only [htl, Option.getD_some]
      omega

/-! ### Preservation of the invariant by every operation -/

theorem seqInv_nodup {s : SeqState} (hInv : SeqInv s) : s.members.Nodup := by
  have h : (List.range s.members.length).Nodup := List.nodup_range _
  rw [← hInv.1] at h
  exact h.of_map

theorem getOrder_pos_of_mem {s : SeqState} (hInv : SeqInv s) {m : Nat}
    (h : m ∈ s.members) :
    ∃ (j : Nat) (hj : j < s.members.length), s.members[j] = m ∧ getOrder s m = j := by
  rcases List.mem_iff_getElem.mp h with ⟨j, hj, hje⟩
  refine ⟨j, hj, hje, ?_⟩
  have hp := pointwise_of_mapRange hInv.1 hj
  rw [hje] at hp
  exact hp

theorem getElem_not_mem_eraseIdx {l : List Nat} {n : Nat} (h : l.Nodup)
    (hn : n < l.length) : l[n] ∉ l.eraseIdx n := by
  rw [List.eraseIdx_eq_take_drop_succ]
  rw [List.nodup_iff_injective_get] at h
  intro hmem
  rcases List.mem_append.mp hmem with h1 | h1
  · rcases List.mem_iff_getElem.mp h1 with ⟨i, hi, hieq⟩
    rw [List.getElem_take] at hieq
    have hfin := @h ⟨i, by simp at hi; omega⟩ ⟨n, hn⟩ (by simpa using hieq)
    have : i = n := congrArg Fin.val hfin
    simp at hi
    omega
  · rcases List.mem_iff_getElem.mp h1 with ⟨i, hi, hieq⟩
    rw [List.getElem_drop] at hieq
    have hfin := @h ⟨n + 1 + i, by simp at hi; omega⟩ ⟨n, hn⟩ (by simpa using hieq)
    have : n + 1 + i = n := congrArg Fin.val hfin
    omega

/-- All four insert operations share the same effect on the invariant-
relevant state components, parameterised by the splice position `j`. -/
theorem seqInv_insertCore (s : SeqState) (j : Nat) (dom' : List Nat)
    (hInv : SeqInv s) (hj : j ≤ s.members.length) :
    SeqInv { count := s.count + 1
             members := s.members.take j ++ s.count :: s.members.drop j
             orderTbl := updField (setIndicesFrom s.orderTbl (s.members.drop j) (j + 1))
               s.count j
             deletedTbl := s.deletedTbl
             hiddenTbl := s.hiddenTbl
             dom := dom'
             allocated := s.allocated ++ [s.count] } := by
  obtain ⟨hmap, hmem, hdel, hndA, hbndA⟩ := hInv
  have hnd : s.members.Nodup := seqInv_nodup ⟨hmap, hmem, hdel, hndA, hbndA⟩
  have hfresh : s.count ∉ s.members := fun hc => absurd ((hmem _ hc).1) (lt_irrefl _)
  have hd := denseAfterInsert s.members s.orderTbl j s.count hj hnd hfresh hmap
  refine ⟨?_, ?_, ?_, ?_, ?_⟩
  · show (s.members.take j ++ s.count :: s.members.drop j).map _
      = List.range (s.members.take j ++ s.count :: s.members.drop j).length
    have hlen : (s.members.take j ++ s.count :: s.members.drop j).length
        = s.members.length + 1 := by
      simp
      omega
    rw [hlen]
    exact hd
  · intro m hm
    rcases List.mem_append.mp hm with h1 | h1
    · have hmL : m ∈ s.members := (List.take_subset j s.members) h1
      exact ⟨Nat.lt_succ_of_lt (hmem _ hmL).1, (hmem _ hmL).2⟩
    · rcases List.mem_cons.mp h1 with h2 | h2
      · subst h2
        exact ⟨Nat.lt_succ_self _, fun hc => absurd (hdel _ hc) (lt_irrefl _)⟩
      · have hmL : m ∈ s.members := (List.drop_subset j s.members) h2
        exact ⟨Nat.lt_succ_of_lt (hmem _ hmL).1, (hmem _ hmL).2⟩
  · intro d hd2
    exact Nat.lt_succ_of_lt (hdel _ hd2)
  · rw [List.nodup_append]
    refine ⟨hndA, List.nodup_singleton _, ?_⟩
    intro a ha hb
    rw [List.mem_singleton] at hb
    subst hb
    exact absurd (hbndA _ ha) (lt_irrefl _)
  · intro a ha
    rcases List.mem_append.mp ha with h1 | h1
    · exact Nat.lt_succ_of_lt (hbndA _ h1)
    · rw [List.mem_singleton] at h1
      subst h1
      exact Nat.lt_succ_self _

theorem seqInv_insertMemberBefore {s : SeqState} {other : Nat}
    (hInv : SeqInv s) (h : other ∈ s.members) :
    SeqInv (insertMemberBefore s other).1 := by
  obtain ⟨j, hj, hje, hord⟩ := getOrder_pos_of_mem hInv h
  have := seqInv_insertCore s (getOrder s other) (domInsertBefore s.dom other s.count)
    hInv (by rw [hord]; omega)
  simpa [insertMemberBefore] using this

theorem seqInv_insertMemberAfter {s : SeqState} {other : Nat}
    (hInv : SeqInv s) (h : other ∈ s.members) :
    SeqInv (insertMemberAfter s other).1 := by
  obtain ⟨j, hj, hje, hord⟩ := getOrder_pos_of_mem hInv h
  have := seqInv_insertCore s (getOrder s other + 1) (domInsertAfter s.dom other s.count)
    hInv (by rw [hord]; omega)
  simpa [insertMemberAfter] using this

theorem seqInv_insertMemberAtStart {s : SeqState} (hInv : SeqInv s) :
    SeqInv (insertMemberAtStart s).1 := by
  have := seqInv_insertCore s 0 (s.count :: s.dom) hInv (Nat.zero_le _)
  simpa [insertMemberAtStart, setIndicesFrom] using this

theorem seqInv_insertMemberAtEnd {s : SeqState} (hInv : SeqInv s) :
    SeqInv (insertMemberAtEnd s).1 := by
  have := seqInv_insertCore s s.members.length (s.dom ++ [s.count]) hInv (le_refl _)
  simpa [insertMemberAtEnd, setIndicesFrom, List.take_length, List.drop_length] using this

theorem seqInv_deleteMember {s : SeqState} {m : Nat}
    (hInv : SeqInv s) (h : m ∈ s.members) :
    SeqInv (deleteMember s m) := by
  obtain ⟨hmap, hmem, hdel, hndA, hbndA⟩ := hInv
  have hnd : s.members.Nodup := seqInv_nodup ⟨hmap, hmem, hdel, hndA, hbndA⟩
  obtain ⟨j, hj, hje, hord⟩ := getOrder_pos_of_mem ⟨hmap, hmem, hdel, hndA, hbndA⟩ h
  have hd := denseAfterErase s.members s.orderTbl j hj hnd hmap
  have hsub : s.members.eraseIdx j ⊆ s.members := by
    rw [List.eraseIdx_eq_take_drop_succ]
    intro x hx
    rcases List.mem_append.mp hx with h1 | h1
    · exact (List.take_subset j s.members) h1
    · exact (List.drop_subset (j + 1) s.members) h1
  have hnotm : m ∉ s.members.eraseIdx j := by
    have := getElem_not_mem_eraseIdx hnd hj
    rw [hje] at this
    exact this
  have htbl : (deleteMember s m).orderTbl
      = setIndicesFrom s.orderTbl (s.members.drop (j + 1)) j := by
    simp [deleteMember, hord]
  have hmems : (deleteMember s m).members = s.members.eraseIdx j := by
    simp [deleteMember, hord]
  refine ⟨?_, ?_, ?_, ?_, ?_⟩
  · rw [hmems]
    have hlen : (s.members.eraseIdx j).length = s.members.length - 1 := by
      rw [List.length_eraseIdx]
      simp [hj]
    rw [hlen]
    have hfun : getOrder (deleteMember s m)
        = fun x => (lookupField x (setIndicesFrom s.orderTbl (s.members.drop (j + 1)) j)).getD 0 := by
      funext x
      rw [getOrder, htbl]
    rw [hfun]
    exact hd
  · intro x hx
    rw [show (deleteMember s m).members = s.members.eraseIdx j by
      simp [deleteMember, hord]] at hx
    have hxL : x ∈ s.members := hsub hx
    refine ⟨(hmem _ hxL).1, ?_⟩
    intro hc
    rcases List.mem_cons.mp hc with h1 | h1
    · subst h1
      exact hnotm hx
    · exact (hmem _ hxL).2 h1
  · intro d hd2
    rcases List.mem_cons.mp hd2 with h1 | h1
    · subst h1
      exact (hmem _ h).1
    · exact hdel _ h1
  · exact hndA
  · exact hbndA

theorem seqInv_initSeq (n : Nat) : SeqInv (initSeq n) := by
  refine ⟨?_, ?_, ?_, ?_, ?_⟩
  · apply List.ext_getElem
    · simp [initSeq]
    · intro i h1 h2
      simp only [initSeq, List.getElem_map, List.getElem_range]
      simp only [initSeq, List.length_map, List.length_range] at h1
      have hi : i < n := by simpa [initSeq] using h1
      show (lookupField i ((List.range n).map (fun i => (i, i)))).getD 0 = i
      rw [lookupField_rangeTbl]
      simp [hi]
  · intro m hm
    simp only [initSeq, List.mem_range] at hm
    exact ⟨hm, by simp [initSeq]⟩
  · intro d hd
    simp [initSeq] at hd
  · simp only [initSeq]
    exact List.nodup_range _
  · intro a ha
    simpa [initSeq] using ha

theorem stepOp_inv {s s' : SeqState} {op : SeqOp}
    (hInv : SeqInv s) (h : stepOp s op = some s') : SeqInv s' := by
  cases op with
  | append =>
    simp only [stepOp, Option.some.injEq] at h
    exact h ▸ seqInv_insertMemberAtEnd hInv
  | atStart =>
    simp only [stepOp, Option.some.injEq] at h
    exact h ▸ seqInv_insertMemberAtStart hInv
  | before m =>
    simp only [stepOp] at h
    by_cases hm : m ∈ s.members
    · rw [if_pos hm] at h
      cases h
      exact seqInv_insertMemberBefore hInv hm
    · rw [if_neg hm] at h
      cases h
  | after m =>
    simp only [stepOp] at h
    by_cases hm : m ∈ s.members
    · rw [if_pos hm] at h
      cases h
      exact seqInv_insertMemberAfter hInv hm
    · rw [if_neg hm] at h
      cases h
  | del m =>
    simp only [stepOp] at h
    by_cases hm : m ∈ s.members
    · rw [if_pos hm] at h
      cases h
      exact seqInv_deleteMember hInv hm
    · rw [if_neg hm] at h
      cases h

theorem runSeq_inv {ops : List SeqOp} {s s' : SeqState}
    (hInv : SeqInv s) (h : runSeq s ops = some s') : SeqInv s' := by
  induction ops generalizing s with
  | nil =>
    simp only [runSeq, Option.some.injEq] at h
    exact h ▸ hInv
  | cons op rest ih =>
    simp only [runSeq] at h
    cases hst : stepOp s op with
    | none => rw [hst] at h; cases h
    | some s1 =>
      rw [hst] at h
      exact ih (stepOp_inv hInv hst) h

/-! ### Claim theorems over the `Sequence` model -/

/-- C1: starting from activation over `n` pre-existing members, after any
finite series of append / prepend / insert-before / insert-after / delete
operations (each relative insert and delete applied to a currently-live
member), the persisted order values of the live members are exactly
`0 … liveCount-1` in live-list position order — dense, duplicate-free and
gap-free — and every live member is unmarked in the deleted fields. -/
theorem seq_liveOrders_dense (n : Nat) (ops : List SeqOp) (s : SeqState)
    (h : runSeq (initSeq n) ops = some s) :
    s.members.map (getOrder s) = List.range s.members.length
    ∧ ∀ m ∈ s.members, m ∉ s.deletedTbl := by
  have hInv := runSeq_inv (seqInv_initSeq n) h
  exact ⟨hInv.1, fun m hm => (hInv.2.1 m hm).2⟩

def c1RunState : SeqState :=
  (runSeq (initSeq 2) [SeqOp.append, SeqOp.del 0, SeqOp.before 2]).getD (initSeq 0)

theorem seq_liveOrders_dense_witness :
    c1RunState.members.map (getOrder c1RunState) = List.range c1RunState.members.length :=
  (seq_liveOrders_dense 2 [SeqOp.append, SeqOp.del 0, SeqOp.before 2] c1RunState
    (by decide)).1

/-- C2: deleting the live member at position `k` of a sequence satisfying
the invariant leaves the order fields of the members before `k`
unchanged, decrements the order field of every member after `k` by
exactly one, removes the member from the in-memory live list, marks its
persisted deleted field, and hides its container. -/
theorem deleteMember_shifts_orders (s : SeqState) (k : Nat)
    (hInv : SeqInv s) (hk : k < s.members.length) :
    (s.members.take k).map (getOrder (deleteMember s (s.members[k]!)))
        = (s.members.take k).map (getOrder s)
    ∧ (s.members.drop (k + 1)).map (getOrder (deleteMember s (s.members[k]!)))
        = ((s.members.drop (k + 1)).map (getOrder s)).map Nat.pred
    ∧ (deleteMember s (s.members[k]!)).members = s.members.eraseIdx k
    ∧ s.members[k]! ∉ (deleteMember s (s.members[k]!)).members
    ∧ s.members[k]! ∈ (deleteMember s (s.members[k]!)).deletedTbl
    ∧ s.members[k]! ∈ (deleteMember s (s.members[k]!)).hiddenTbl := by
  have hnd := seqInv_nodup hInv
  rw [show s.members[k]! = s.members[k] by rw [getElem!_pos]]
  have hord : getOrder s (s.members[k]) = k := pointwise_of_mapRange hInv.1 hk
  have htbl : (deleteMember s (s.members[k])).orderTbl
      = setIndicesFrom s.orderTbl (s.members.drop (k + 1)) k := by
    simp [deleteMember, hord]
  have hmems : (deleteMember s (s.members[k])).members = s.members.eraseIdx k := by
    simp [deleteMember, hord]
  refine ⟨?_, ?_, hmems, ?_, ?_, ?_⟩
  · apply List.map_congr_left
    intro x hx
    have hx1 : x ∈ s.members.take (k + 1) := by
      have heq : List.take k s.members = List.take k (List.take (k + 1) s.members) := by
        rw [List.take_take]
        congr 1
        omega
      rw [heq] at hx
      exact List.take_subset _ _ hx
    have hx2 : x ∉ s.members.drop (k + 1) := not_mem_drop_of_mem_take hnd (k + 1) hx1
    rw [getOrder, htbl, lookupField_setIndicesFrom_not_mem _ _ _ _ hx2]
    rfl
  · have hndD : (s.members.drop (k + 1)).Nodup := by
      have hh := hnd
      rw [← List.take_append_drop (k + 1) s.members] at hh
      exact (List.nodup_append.mp hh).2.1
    apply List.ext_getElem
    · simp
    · intro i h1 h2
      simp only [List.length_map, List.length_drop] at h1
      have hiD : i < (s.members.drop (k + 1)).length := by simp; omega
      simp only [List.getElem_map]
      rw [getOrder, htbl, lookupField_setIndicesFrom_getElem _ _ _ _ hndD hiD]
      have hiL : k + 1 + i < s.members.length := by omega
      have helem : (s.members.drop (k + 1))[i] = s.members[k + 1 + i] := by
        simp
      rw [helem]
      have := pointwise_of_mapRange hInv.1 hiL
      rw [this]
      simp
  · rw [hmems]
    exact getElem_not_mem_eraseIdx hnd hk
  · simp [deleteMember]
  · simp [deleteMember]

theorem deleteMember_shifts_orders_witness :
    ((initSeq 3).members.take 1).map (getOrder (deleteMember (initSeq 3) ((initSeq 3).members[1]!)))
        = ((initSeq 3).members.take 1).map (getOrder (initSeq 3))
    ∧ ((initSeq 3).members.drop 2).map (getOrder (deleteMember (initSeq 3) ((initSeq 3).members[1]!)))
        = (((initSeq 3).members.drop 2).map (getOrder (initSeq 3))).map Nat.pred
    ∧ (deleteMember (initSeq 3) ((initSeq 3).members[1]!)).members
        = (initSeq 3).members.eraseIdx 1
    ∧ (initSeq 3).members[1]! ∉ (deleteMember (initSeq 3) ((initSeq 3).members[1]!)).members
    ∧ (initSeq 3).members[1]! ∈ (deleteMember (initSeq 3) ((initSeq 3).members[1]!)).deletedTbl
    ∧ (initSeq 3).members[1]! ∈ (deleteMember (initSeq 3) ((initSeq 3).members[1]!)).hiddenTbl :=
  deleteMember_shifts_orders (initSeq 3) 1 (by decide) (by decide)

/-- C5: the append operation (`insertMemberAtEnd`) puts the new member at
the end of the live list and at the end of the DOM child list, and writes
the live length of the sequence before the push — not the allocation
counter value — into the new member's persisted order field; the new
member's id (hence its address) is the allocation counter value. -/
theorem insertMemberAtEnd_spec (s : SeqState) :
    (insertMemberAtEnd s).1.members = s.members ++ [(insertMemberAtEnd s).2]
    ∧ (insertMemberAtEnd s).1.dom = s.dom ++ [(insertMemberAtEnd s).2]
    ∧ getOrder (insertMemberAtEnd s).1 (insertMemberAtEnd s).2 = s.members.length
    ∧ (insertMemberAtEnd s).2 = s.count := by
  refine ⟨rfl, rfl, ?_, rfl⟩
  show (lookupField s.count (updField s.orderTbl s.count s.members.length)).getD 0
      = s.members.length
  rw [lookupField_updField_self]
  rfl

/-- C6: on a sequence with at least one live member, `insertMemberAfter`
applied to the last live member yields the same live-member list,
persisted order fields, counter, deletion and visibility state, ghost
allocation history and new-member id as `insertMemberAtEnd`; likewise
`insertMemberBefore` on the first live member agrees with
`insertMemberAtStart`.  (Only the DOM placement relative to hidden
deleted containers may differ, which the claim does not compare.) -/
theorem insertRelative_tiebreak (s : SeqState) (hInv : SeqInv s)
    (hne : s.members ≠ []) :
    ((insertMemberAfter s (s.members[s.members.length - 1]!)).1.members
        = (insertMemberAtEnd s).1.members
      ∧ (insertMemberAfter s (s.members[s.members.length - 1]!)).1.orderTbl
        = (insertMemberAtEnd s).1.orderTbl
      ∧ (insertMemberAfter s (s.members[s.members.length - 1]!)).1.count
        = (insertMemberAtEnd s).1.count
      ∧ (insertMemberAfter s (s.members[s.members.length - 1]!)).1.deletedTbl
        = (insertMemberAtEnd s).1.deletedTbl
      ∧ (insertMemberAfter s (s.members[s.members.length - 1]!)).1.hiddenTbl
        = (insertMemberAtEnd s).1.hiddenTbl
      ∧ (insertMemberAfter s (s.members[s.members.length - 1]!)).1.allocated
        = (insertMemberAtEnd s).1.allocated
      ∧ (insertMemberAfter s (s.members[s.members.length - 1]!)).2
        = (insertMemberAtEnd s).2)
    ∧ ((insertMemberBefore s (s.members[0]!)).1.members
        = (insertMemberAtStart s).1.members
      ∧ (insertMemberBefore s (s.members[0]!)).1.orderTbl
        = (insertMemberAtStart s).1.orderTbl
      ∧ (insertMemberBefore s (s.members[0]!)).1.count
        = (insertMemberAtStart s).1.count
      ∧ (insertMemberBefore s (s.members[0]!)).1.deletedTbl
        = (insertMemberAtStart s).1.deletedTbl
      ∧ (insertMemberBefore s (s.members[0]!)).1.hiddenTbl
        = (insertMemberAtStart s).1.hiddenTbl
      ∧ (insertMemberBefore s (s.members[0]!)).1.allocated
        = (insertMemberAtStart s).1.allocated
      ∧ (insertMemberBefore s (s.members[0]!)).2
        = (insertMemberAtStart s).2) := by
  have hlen : 0 < s.members.length := List.length_pos.mpr hne
  have hk1 : s.members.length - 1 < s.members.length := by omega
  have hk0 : 0 < s.members.length := hlen
  constructor
  · rw [show s.members[s.members.length - 1]! = s.members[s.members.length - 1] by
      rw [getElem!_pos]]
    have hord : getOrder s (s.members[s.members.length - 1]) = s.members.length - 1 :=
      pointwise_of_mapRange hInv.1 hk1
    have hidx : getOrder s (s.members[s.members.length - 1]) + 1 = s.members.length := by
      omega
    refine ⟨?_, ?_, rfl, rfl, rfl, rfl, rfl⟩
    · show s.members.take _ ++ s.count :: s.members.drop _ = s.members ++ [s.count]
      rw [hidx, List.take_length, List.drop_length]
    · show updField (setIndicesFrom s.orderTbl (s.members.drop _) _) s.count _
        = updField s.orderTbl s.count s.members.length
      rw [hidx, List.drop_length]
      rfl
  · rw [show s.members[0]! = s.members[0] by rw [getElem!_pos]]
    have hord : getOrder s (s.members[0]) = 0 := pointwise_of_mapRange hInv.1 hk0
    refine ⟨?_, ?_, rfl, rfl, rfl, rfl, rfl⟩
    · show s.members.take _ ++ s.count :: s.members.drop _ = s.count :: s.members
      rw [hord]
      simp
    · show updField (setIndicesFrom s.orderTbl (s.members.drop _) _) s.count _
        = updField (setIndicesFrom s.orderTbl s.members 1) s.count 0
      rw [hord]
      simp

theorem insertRelative_tiebreak_witness :
    (insertMemberAfter (initSeq 2) ((initSeq 2).members[(initSeq 2).members.length - 1]!)).1.members
      = (insertMemberAtEnd (initSeq 2)).1.members
    ∧ (insertMemberBefore (initSeq 2) ((initSeq 2).members[0]!)).1.orderTbl
      = (insertMemberAtStart (initSeq 2)).1.orderTbl := by
  have h := insertRelative_tiebreak (initSeq 2) (by decide) (by decide)
  exact ⟨h.1.1, h.2.2.1⟩

/-- C7: the persisted counter never decreases over any operation series;
each of the four insert operations increments it by exactly one, and
`deleteMember` leaves it unchanged. -/
theorem seq_count_monotone (s s' : SeqState) (ops : List SeqOp)
    (h : runSeq s ops = some s') :
    s.count ≤ s'.count
    ∧ (∀ t : SeqState, (insertMemberAtEnd t).1.count = t.count + 1)
    ∧ (∀ t : SeqState, (insertMemberAtStart t).1.count = t.count + 1)
    ∧ (∀ (t : SeqState) (m : Nat), (insertMemberBefore t m).1.count = t.count + 1)
    ∧ (∀ (t : SeqState) (m : Nat), (insertMemberAfter t m).1.count = t.count + 1)
    ∧ (∀ (t : SeqState) (m : Nat), (deleteMember t m).count = t.count) := by
  refine ⟨?_, fun t => rfl, fun t => rfl, fun t m => rfl, fun t m => rfl, fun t m => rfl⟩
  induction ops generalizing s with
  | nil =>
    simp only [runSeq, Option.some.injEq] at h
    exact h ▸ le_refl _
  | cons op rest ih =>
    simp only [runSeq] at h
    cases hst : stepOp s op with
    | none =>
      rw [hst] at h
      cases h
    | some s1 =>
      rw [hst] at h
      have h1 : s.count ≤ s1.count := by
        cases op with
        | append =>
          simp only [stepOp, Option.some.injEq] at hst
          rw [← hst]
          exact Nat.le_succ _
        | atStart =>
          simp only [stepOp, Option.some.injEq] at hst
          rw [← hst]
          exact Nat.le_succ _
        | before m =>
          simp only [stepOp] at hst
          by_cases hm : m ∈ s.members
          · rw [if_pos hm] at hst
            cases hst
            exact Nat.le_succ _
          · rw [if_neg hm] at hst
            cases hst
        | after m =>
          simp only [stepOp] at hst
          by_cases hm : m ∈ s.members
          · rw [if_pos hm] at hst
            cases hst
            exact Nat.le_succ _
          · rw [if_neg hm] at hst
            cases hst
        | del m =>
          simp only [stepOp] at hst
          by_cases hm : m ∈ s.members
          · rw [if_pos hm] at hst
            cases hst
            exact le_refl _
          · rw [if_neg hm] at hst
            cases hst
      exact le_trans h1 (ih s1 h)

theorem seq_count_monotone_witness :
    (initSeq 1).count ≤ ((insertMemberAtEnd (initSeq 1)).1).count :=
  (seq_count_monotone (initSeq 1) (insertMemberAtEnd (initSeq 1)).1 [SeqOp.append]
    (by decide)).1

/-- C10: `deleteMember` is only safe on a currently-live member: calling
it a second time on a member already removed from the live list reads
the stale order field, renumbers the later members down from that stale
position and splices that position out of the live list, thereby
silently removing a different, still-live member (never marked deleted
or hidden) instead of being a no-op. -/
theorem deleteMember_stale_corrupts :
    deleteMember (deleteMember (initSeq 4) 0) 0 ≠ deleteMember (initSeq 4) 0
    ∧ (deleteMember (initSeq 4) 0).members = [1, 2, 3]
    ∧ 1 ∉ (deleteMember (initSeq 4) 0).deletedTbl
    ∧ (deleteMember (deleteMember (initSeq 4) 0) 0).members = [2, 3]
    ∧ 1 ∉ (deleteMember (deleteMember (initSeq 4) 0) 0).members
    ∧ 1 ∉ (deleteMember (deleteMember (initSeq 4) 0) 0).deletedTbl
    ∧ 1 ∉ (deleteMember (deleteMember (initSeq 4) 0) 0).hiddenTbl
    ∧ getOrder (deleteMember (deleteMember (initSeq 4) 0) 0) 2 = 0
    ∧ getOrder (deleteMember (deleteMember (initSeq 4) 0) 0) 1 = 0 := by
  decide

/-! ### Member addresses (`opts.prefix + '-' + n`) -/

/-- Little-endian decimal digits with structural fuel (`n + 1` divisions
always suffice); models the digit extraction of JavaScript's
number-to-string conversion. -/
def decDigitsCore : Nat → Nat → List Nat
  | 0, _ => []
  | fuel + 1, n => if n = 0 then [] else n % 10 :: decDigitsCore fuel (n / 10)

/-- Little-endian decimal digit list of `n` (canonical: `0` renders as
`[0]`, no leading zeros otherwise). -/
def decDigits (n : Nat) : List Nat :=
  if n = 0 then [0] else decDigitsCore (n + 1) n

/-- Decimal value of a little-endian digit list. -/
def decodeDec : List Nat → Nat
  | [] => 0
  | d :: ds => d + 10 * decodeDec ds

theorem decodeDec_decDigitsCore (fuel n : Nat) (h : n ≤ fuel) :
    decodeDec (decDigitsCore fuel n) = n := by
  induction fuel generalizing n with
  | zero =>
    have h0 : n = 0 := Nat.le_zero.mp h
    simp [decDigitsCore, h0, decodeDec]
  | succ f ih =>
    by_cases h0 : n = 0
    · simp [decDigitsCore, h0, decodeDec]
    · simp only [decDigitsCore, h0, if_false, decodeDec]
      have hdiv : n / 10 ≤ f := by omega
      rw [ih _ hdiv]
      omega

theorem decodeDec_decDigits (n : Nat) : decodeDec (decDigits n) = n := by
  by_cases h0 : n = 0
  · simp [decDigits, h0, decodeDec]
  · simp only [decDigits, h0, if_false]
    exact decodeDec_decDigitsCore _ _ (Nat.le_succ n)

theorem decDigits_inj {a b : Nat} (h : decDigits a = decDigits b) : a = b := by
  have h2 := congrArg decodeDec h
  rwa [decodeDec_decDigits, decodeDec_decDigits] at h2

theorem decDigitsCore_lt_ten (fuel n : Nat) : ∀ d ∈ decDigitsCore fuel n, d < 10 := by
  induction fuel generalizing n with
  | zero =>
    intro d hd
    simp [decDigitsCore] at hd
  | succ f ih =>
    intro d hd
    by_cases h0 : n = 0
    · simp [decDigitsCore, h0] at hd
    · simp only [decDigitsCore, h0, if_false, List.mem_cons] at hd
      rcases hd with h1 | h1
      · subst h1
        omega
      · exact ih _ _ h1

theorem decDigits_lt_ten (n : Nat) : ∀ d ∈ decDigits n, d < 10 := by
  intro d hd
  by_cases h0 : n = 0
  · simp [decDigits, h0] at hd
    omega
  · simp only [decDigits, h0, if_false] at hd
    exact decDigitsCore_lt_ten _ _ _ hd

/-- JavaScript's decimal rendering of the numeric suffix appended by
`'' + newIndex`: big-endian digit characters. -/
def natToDec (n : Nat) : String :=
  List.asString ((decDigits n).reverse.map Nat.digitChar)

theorem digitChar_inj_lt : ∀ a < 10, ∀ b < 10,
    Nat.digitChar a = Nat.digitChar b → a = b := by decide

theorem map_digitChar_inj : ∀ (l1 l2 : List Nat), (∀ d ∈ l1, d < 10) →
    (∀ d ∈ l2, d < 10) → l1.map Nat.digitChar = l2.map Nat.digitChar → l1 = l2 := by
  intro l1
  induction l1 with
  | nil =>
    intro l2 _ _ h
    cases l2 with
    | nil => rfl
    | cons b bs => simp at h
  | cons a as ih =>
    intro l2 h1 h2 h
    cases l2 with
    | nil => simp at h
    | cons b bs =>
      simp only [List.map_cons, List.cons.injEq] at h
      have ha : a < 10 := h1 a (List.mem_cons_self a as)
      have hb : b < 10 := h2 b (List.mem_cons_self b bs)
      have hab : a = b := digitChar_inj_lt a ha b hb h.1
      have hrest : as = bs := ih bs
        (fun d hd => h1 d (List.mem_cons_of_mem a hd))
        (fun d hd => h2 d (List.mem_cons_of_mem b hd)) h.2
      rw [hab, hrest]

theorem stringDataExt {s t : String} (h : s.data = t.data) : s = t := by
  cases s
  cases t
  exact congrArg String.mk h

theorem natToDec_inj {a b : Nat} (h : natToDec a = natToDec b) : a = b := by
  have hd : ((decDigits a).reverse.map Nat.digitChar)
      = ((decDigits b).reverse.map Nat.digitChar) := congrArg String.data h
  have hrev : (decDigits a).reverse = (decDigits b).reverse :=
    map_digitChar_inj _ _
      (fun d hd2 => decDigits_lt_ten a d (List.mem_reverse.mp hd2))
      (fun d hd2 => decDigits_lt_ten b d (List.mem_reverse.mp hd2)) hd
  have h2 := congrArg List.reverse hrev
  simp only [List.reverse_reverse] at h2
  exact decDigits_inj h2

/-- The address allocated for member `n` of the sequence at address `p`:
`opts.prefix + '-' + n` (the initial-member loop and
`getNewMemberPrefix` build addresses the same way). -/
def memberPfx (p : String) (n : Nat) : String :=
  p ++ "-" ++ natToDec n

theorem memberPfx_inj (p : String) {a b : Nat} (h : memberPfx p a = memberPfx p b) :
    a = b := by
  have hd := congrArg String.data h
  simp only [memberPfx, String.data_append] at hd
  have h2 := List.append_cancel_left hd
  exact natToDec_inj (stringDataExt h2)

/-- C8: across a sequence's entire lifetime — soft-deleted members
included — no two members ever share an address: the pre-existing
members receive `p-0 … p-(n-1)` and every insert allocates `p-count`
with the counter then incremented, so the ghost history of all
allocated member addresses is duplicate-free. -/
theorem member_addresses_unique (n : Nat) (ops : List SeqOp) (s : SeqState)
    (p : String) (h : runSeq (initSeq n) ops = some s) :
    (s.allocated.map (memberPfx p)).Nodup := by
  have hInv := runSeq_inv (seqInv_initSeq n) h
  have hnd : s.allocated.Nodup := hInv.2.2.2.1
  exact List.Nodup.map (fun a b hab => memberPfx_inj p hab) hnd

def c8RunState : SeqState :=
  (runSeq (initSeq 2) [SeqOp.append, SeqOp.del 1, SeqOp.append]).getD (initSeq 0)

theorem member_addresses_unique_witness :
    (c8RunState.allocated.map (memberPfx "blocks")).Nodup :=
  member_addresses_unique 2 [SeqOp.append, SeqOp.del 1, SeqOp.append] c8RunState
    "blocks" (by decide)

/-! ### Initialization hooks of the `appendMember`-style Sequence
(part_007 / part_008) versus the final Sequence (part_009) -/

/-- A hook invocation recorded during Sequence activity: the common
`onInitializeMember` hook, the pre-existing-member variant hook (with
its loop position), or the new-member variant hook. -/
inductive HookEv where
  | common (id : Nat) : HookEv
  | initialMember (id : Nat) (pos : Nat) : HookEv
  | newMember (id : Nat) : HookEv
  deriving Repr, DecidableEq

/-- Which of the three optional `opts` callbacks the Sequence caller
supplied. -/
structure HookOpts where
  hasCommon : Bool
  hasInitialHook : Bool
  hasNewHook : Bool
  deriving Repr, DecidableEq

/-- Counter plus hook-invocation log of the `appendMember`-style
Sequence (part_008): the only state components the hook claim depends
on (its `deleteMember` renumbers and splices, but fires no hook and
leaves the counter unchanged). -/
structure HookState where
  count : Nat
  events : List HookEv
  deriving Repr, DecidableEq

/-- The initial-member loop of the part_008 Sequence: for each
pre-existing member `i` in ascending order, call `onInitializeMember`
then `onInitializeInitialMember` when supplied. -/
def initEvents008 (o : HookOpts) : Nat → List HookEv
  | 0 => []
  | n + 1 =>
    initEvents008 o n
      ++ (if o.hasCommon then [HookEv.common n] else [])
      ++ (if o.hasInitialHook then [HookEv.initialMember n n] else [])

/-- part_008 `Sequence` activation over `n` pre-existing members. -/
def hookInit008 (o : HookOpts) (n : Nat) : HookState :=
  { count := n, events := initEvents008 o n }

/-- part_008 `Sequence.appendMember`: allocate the counter value as the
new member's id, increment the counter, then call `onInitializeMember`
and `onInitializeNewMember` when supplied. -/
def append008 (o : HookOpts) (st : HookState) : HookState :=
  { count := st.count + 1
    events := st.events
      ++ (if o.hasCommon then [HookEv.common st.count] else [])
      ++ (if o.hasNewHook then [HookEv.newMember st.count] else []) }

/-- part_008 `Sequence.deleteMember`: no hook fires and the counter is
untouched, so the hook-relevant state is unchanged. -/
def delete008 (st : HookState) : HookState :=
  st

/-- User operations on the part_008 Sequence. -/
inductive H8Op where
  | append : H8Op
  | del : H8Op
  deriving Repr, DecidableEq

def run008 (o : HookOpts) (st : HookState) : List H8Op → HookState
  | [] => st
  | H8Op.append :: rest => run008 o (append008 o st) rest
  | H8Op.del :: rest => run008 o (delete008 st) rest

/-- Is this event one of the two variant hooks, for the given member? -/
def isVariantFor (id : Nat) : HookEv → Bool
  | HookEv.common _ => false
  | HookEv.initialMember j _ => j == id
  | HookEv.newMember j => j == id

/-- Number of variant-hook invocations recorded for the given member. -/
def variantCount (evs : List HookEv) (id : Nat) : Nat :=
  (evs.filter (isVariantFor id)).length

theorem variantCount_append (a b : List HookEv) (id : Nat) :
    variantCount (a ++ b) id = variantCount a id + variantCount b id := by
  simp [variantCount, List.filter_append]

theorem variantCount_initEvents008 (o : HookOpts) (hI : o.hasInitialHook = true)
    (n : Nat) (id : Nat) :
    variantCount (initEvents008 o n) id = if id < n then 1 else 0 := by
  induction n with
  | zero => simp [initEvents008, variantCount]
  | succ k ih =>
    simp only [initEvents008]
    rw [variantCount_append, variantCount_append, ih]
    have hc : variantCount (if o.hasCommon then [HookEv.common k] else []) id = 0 := by
      cases o.hasCommon <;> simp [variantCount, isVariantFor]
    have hik : variantCount (if o.hasInitialHook then [HookEv.initialMember k k] else []) id
        = if k = id then 1 else 0 := by
      rw [hI]
      by_cases hk : k = id <;> simp [variantCount, isVariantFor, hk]
    rw [hc, hik]
    by_cases h1 : id < k
    · have h2 : id < k + 1 := by omega
      have h3 : ¬ k = id := by omega
      simp [h1, h2, h3]
    · by_cases h2 : k = id
      · have h3 : id < k + 1 := by omega
        simp [h1, h2, h3]
      · have h3 : ¬ id < k + 1 := by omega
        simp [h1, h2, h3]

theorem variantCount_run008 (o : HookOpts) (hN : o.hasNewHook = true)
    (st : HookState) (ops : List H8Op)
    (hG : ∀ id, variantCount st.events id = if id < st.count then 1 else 0) :
    ∀ id, variantCount (run008 o st ops).events id
      = if id < (run008 o st ops).count then 1 else 0 := by
  induction ops generalizing st with
  | nil => exact hG
  | cons op rest ih =>
    cases op with
    | append =>
      apply ih
      intro id
      show variantCount (st.events ++ _ ++ _) id = if id < st.count + 1 then 1 else 0
      rw [variantCount_append, variantCount_append, hG]
      have hc : variantCount (if o.hasCommon then [HookEv.common st.count] else []) id
          = 0 := by
        cases o.hasCommon <;> simp [variantCount, isVariantFor]
      have hnk : variantCount (if o.hasNewHook then [HookEv.newMember st.count] else []) id
          = if st.count = id then 1 else 0 := by
        rw [hN]
        by_cases hk : st.count = id <;> simp [variantCount, isVariantFor, hk]
      rw [hc, hnk]
      by_cases h1 : id < st.count
      · have h2 : id < st.count + 1 := by omega
        have h3 : ¬ st.count = id := by omega
        simp [h1, h2, h3]
      · by_cases h2 : st.count = id
        · have h3 : id < st.count + 1 := by omega
          simp [h1, h2, h3]
        · have h3 : ¬ id < st.count + 1 := by omega
          simp [h1, h2, h3]
    | del => exact ih st hG

/-- C4 (amended, positive part): in the `appendMember`-style Sequence
(part_008) with both variant hooks supplied, every member — whether
pre-existing or appended — fires exactly one variant hook over any
series of appends and deletes: never both, never neither. -/
theorem variantHook_exactlyOnce_008 (o : HookOpts) (hI : o.hasInitialHook = true)
    (hN : o.hasNewHook = true) (n : Nat) (ops : List H8Op) (id : Nat)
    (hid : id < (run008 o (hookInit008 o n) ops).count) :
    variantCount (run008 o (hookInit008 o n) ops).events id = 1 := by
  have hG : ∀ j, variantCount (hookInit008 o n).events j
      = if j < (hookInit008 o n).count then 1 else 0 := by
    intro j
    exact variantCount_initEvents008 o hI n j
  rw [variantCount_run008 o hN (hookInit008 o n) ops hG id, if_pos hid]

theorem variantHook_exactlyOnce_008_witness :
    variantCount (run008 ⟨true, true, true⟩ (hookInit008 ⟨true, true, true⟩ 1)
      [H8Op.append, H8Op.del]).events 1 = 1 :=
  variantHook_exactlyOnce_008 ⟨true, true, true⟩ rfl rfl 1 [H8Op.append, H8Op.del] 1
    (by decide)

/-- The initial-member loop of the part_009 Sequence (its lines
162-170): only `opts.onInitializeMember` is consulted; the variant
hooks are never read, whether supplied or not. -/
def initEvents009 (o : HookOpts) : Nat → List HookEv
  | 0 => []
  | n + 1 => initEvents009 o n ++ (if o.hasCommon then [HookEv.common n] else [])

/-- part_009 `postInsertMember` (run by all four insert operations):
only `opts.onInitializeMember` is called (then `_markAdded`); no
variant hook fires for an inserted member either. -/
def postInsertEvents009 (o : HookOpts) (id : Nat) : List HookEv :=
  if o.hasCommon then [HookEv.common id] else []

/-- C4 (counterexample): a part_009 Sequence constructed with all three
hooks supplied (exactly what part_001's ListBlock passes) fires zero
variant hooks for a pre-existing member and zero for an inserted
member — "never neither" fails as stated. -/
theorem variantHook_009_neither :
    ¬ variantCount (initEvents009 ⟨true, true, true⟩ 1) 0 = 1
    ∧ variantCount (initEvents009 ⟨true, true, true⟩ 1) 0 = 0
    ∧ ¬ variantCount (postInsertEvents009 ⟨true, true, true⟩ 1) 1 = 1
    ∧ variantCount (postInsertEvents009 ⟨true, true, true⟩ 1) 1 = 0 := by
  decide

/-! ### StreamBlock dispatch on the stored type tag -/

/-- A registered child block type of a StreamBlock: its name and whether
an initializer function is supplied (in `stream.js` the
`blockOpts.initializer` property is optional). -/
structure ChildBlockDef where
  name : String
  hasInit : Bool
  deriving Repr, DecidableEq

/-- `childBlocksByName[tag]`: the lookup object built from
`opts.childBlocks` (names are distinct in practice, so first match
equals the JS property lookup). -/
def childBlocksByName (reg : List ChildBlockDef) (tag : String) : Option ChildBlockDef :=
  reg.find? (fun b => b.name == tag)

/-- `initListMember` of the current `stream.js` (its lines 15-23): look
the type tag up and dereference the result unconditionally
(`blockOpts.initializer`); an unregistered tag makes the lookup yield
`undefined` and the dereference throw, modelled as `Except.error`.  On
success, the initializer invocation made (the `-value` address), or no
invocation when that block type has no initializer. -/
def initListMemberJS (reg : List ChildBlockDef) (tag : String) (memberAddr : String) :
    Except String (List String) :=
  match childBlocksByName reg tag with
  | none => Except.error "TypeError: blockOpts is undefined"
  | some b => Except.ok (if b.hasInit then [memberAddr ++ "-value"] else [])

/-- The activation loop of the current `stream.js` (its lines 36-41),
starting at member index `i`: read each member's stored `-type` tag and
run `initListMember`; an uncaught exception aborts the whole loop at
that member. -/
def streamActivateJSFrom (reg : List ChildBlockDef) (elementPfx : String) :
    List String → Nat → Except String (List String)
  | [], _ => Except.ok []
  | tag :: rest, i =>
    match initListMemberJS reg tag (elementPfx ++ "-" ++ natToDec i) with
    | Except.error e => Except.error e
    | Except.ok calls =>
      match streamActivateJSFrom reg elementPfx rest (i + 1) with
      | Except.error e => Except.error e
      | Except.ok more => Except.ok (calls ++ more)

/-- Activation of the current `stream.js` StreamBlock over the members'
stored type tags: the child-initializer calls made, or the fault that
aborted activation. -/
def streamActivateJS (reg : List ChildBlockDef) (tags : List String)
    (elementPfx : String) : Except String (List String) :=
  streamActivateJSFrom reg elementPfx tags 0

/-- The activation loop of the part_004 StreamBlock (its lines 12-19),
starting at member index `i`: the looked-up initializer is guarded
(`if (childInitializer)`), so an unregistered tag is skipped silently
and registered members are initialized at `prefix-i-item`.  `reg` lists
the registered type names (those with initializers). -/
def streamActivate004From (reg : List String) (elementPfx : String) :
    List String → Nat → List String
  | [], _ => []
  | tag :: rest, i =>
    (if tag ∈ reg then [elementPfx ++ "-" ++ natToDec i ++ "-item"] else [])
      ++ streamActivate004From reg elementPfx rest (i + 1)

/-- Activation of the part_004 StreamBlock over the members' stored
type tags. -/
def streamActivate004 (reg : List String) (tags : List String)
    (elementPfx : String) : List String :=
  streamActivate004From reg elementPfx tags 0

/-- C3 (code evaluation at the failing input): with only `"text"`
registered and member tags `["text", "unknown_type", "text"]`, the
current `stream.js` activation throws at the unknown member — after
initializing member 0 but never reaching member 2 — while the part_004
StreamBlock tolerates the unknown tag silently and initializes members
0 and 2 as the spec requires. -/
theorem streamActivate_unknownTag :
    streamActivateJS [⟨"text", true⟩] ["text", "unknown_type", "text"] "blocks"
      = Except.error "TypeError: blockOpts is undefined"
    ∧ streamActivate004 ["text"] ["text", "unknown_type", "text"] "blocks"
      = ["blocks-0-item", "blocks-2-item"] := by
  constructor
  · rfl
  · rfl

/-! ### ListBlock activation round trip -/

/-- The activation entry of the current `list.js` (its lines 97-105):
read the persisted count and, for each member index `i < count` in
ascending order, run `initListMember` (its lines 83-88), which passes
the i-th server-supplied value and the member's `-value` address to the
child initializer when one is supplied.  Returns the child-initializer
calls made, in order, all within the activation call. -/
def listBlockActivate {α : Type} (hasChildInit : Bool) (childParams : List α)
    (elementPfx : String) (count : Nat) : List (Option α × String) :=
  if hasChildInit then
    (List.range count).map
      (fun i => (childParams.get? i, elementPfx ++ "-" ++ natToDec i ++ "-value"))
  else []

/-- C9: activating a ListBlock with a child initializer, persisted count
3 and server values `[v0, v1, v2]` invokes the child initializer
exactly once per member with `(v_i, prefix-i-value)`, for `i = 0, 1, 2`
in ascending order, all before the activation call returns. -/
theorem listBlock_roundTrip {α : Type} (p : String) (v0 v1 v2 : α) :
    listBlockActivate true [v0, v1, v2] p 3
      = [(some v0, p ++ "-" ++ "0" ++ "-value"),
         (some v1, p ++ "-" ++ "1" ++ "-value"),
         (some v2, p ++ "-" ++ "2" ++ "-value")] := by
  rfl
